import Mathlib

/-!
# Verification of `jira_xml_folder_to_jsonl.py`

A shallow embedding of the core of the Jira-XML-folder-to-JSONL converter:
text sanitization (`strip_html`), namespace-agnostic tree navigation
(`local_name`, `find_child`, `find_text`, `text_of`), the field extractors,
the record builder (`item_to_issue_dict`, `build_search_text`), the structural
weight metric (`node_weight`) and the deduplicating aggregator from `main`.

Strings are modelled as Lean `String` (a list of Unicode code points), which
matches Python `str`.  Python whitespace handling (`str.strip`, the regex
class `\s`) is modelled over the ASCII whitespace characters
`' '`, `'\t'`, `'\n'`, `'\r'`, `'\x0b'`, `'\x0c'`; the source data and all
inputs considered here are within this range.
-/

set_option maxHeartbeats 1000000

namespace JiraJsonl

/-! ## Python string primitives -/

/-- ASCII whitespace, as recognised by Python `str.strip()` and the regex
class `\s` (restricted to the ASCII range). -/
def pyIsSpace (c : Char) : Bool :=
  c = ' ' || c = '\t' || c = '\n' || c = '\r' || c = '\x0b' || c = '\x0c'

/-- Drop trailing characters satisfying `p` (helper for `stripChars`). -/
def dropTrailing (p : Char → Bool) (cs : List Char) : List Char :=
  (cs.reverse.dropWhile p).reverse

/-- Python `str.strip()` on the underlying character list: remove leading and
trailing whitespace. -/
def stripChars (cs : List Char) : List Char :=
  dropTrailing pyIsSpace (cs.dropWhile pyIsSpace)

/-- Python `str.strip()`. -/
def pyStrip (s : String) : String :=
  ⟨stripChars s.data⟩

/-- Python `re.sub(r"\s+", " ", ·)` on the underlying character list: every
maximal run of whitespace characters becomes a single space. -/
def collapseChars : List Char → List Char
  | [] => []
  | c :: rest =>
    if pyIsSpace c then
      match rest with
      | [] => [' ']
      | d :: _ => if pyIsSpace d then collapseChars rest else ' ' :: collapseChars rest
    else c :: collapseChars rest

/-- Python `re.sub(r"\s+", " ", s)`. -/
def pyCollapse (s : String) : String :=
  ⟨collapseChars s.data⟩

/-- Split a character list at every occurrence of `sep` (Python
`str.split(sep)` for a one-character separator; used to talk about the lines
of a rendered text blob). -/
def splitCharAux (sep : Char) (cs : List Char) (cur : List Char) : List (List Char) :=
  match cs with
  | [] => [cur.reverse]
  | c :: rest =>
    if c = sep then cur.reverse :: splitCharAux sep rest []
    else splitCharAux sep rest (c :: cur)

/-- The lines of a string (split at `'\n'`). -/
def linesOf (s : String) : List String :=
  (splitCharAux '\n' s.data []).map fun cs => ⟨cs⟩

/-- `"sep".join(parts)` (Python `str.join`). -/
def pyJoin (sep : String) (parts : List String) : String :=
  ⟨(parts.map String.data).intersperse sep.data |>.flatten⟩

/-- Boolean string-prefix test on the underlying character lists. -/
def strStarts (pre s : String) : Bool :=
  pre.data.isPrefixOf s.data

/-- Lexicographic comparison of character lists by code point (Python string
`<=`). -/
def charsLe : List Char → List Char → Bool
  | [], _ => true
  | _ :: _, [] => false
  | a :: as, b :: bs => if a < b then true else if b < a then false else charsLe as bs

/-- Python string `<=` (ordinal, by code point). -/
def pyStrLe (a b : String) : Bool :=
  charsLe a.data b.data

/-- ASCII lower-casing of one character (Python `str.lower`, restricted to
the ASCII range that the custom-field names here use). -/
def lowerChar (c : Char) : Char :=
  if 'A' ≤ c ∧ c ≤ 'Z' then Char.ofNat (c.toNat + 32) else c

/-- Python `str.lower` (ASCII model). -/
def pyLower (s : String) : String :=
  ⟨s.data.map lowerChar⟩

/-! ## The key pattern `KEY_RE = ^[A-Z][A-Z0-9]+-\d+$` -/

/-- Membership in the regex class `[A-Z0-9]`. -/
def isUpperDigit (c : Char) : Bool :=
  c.isUpper || c.isDigit

/-- Full match of a character list against `[A-Z][A-Z0-9]+-\d+`
(`KEY_RE` from the source; `re.match` with both anchors in the pattern is a
full-string match on the already-stripped input). -/
def keyMatch (cs : List Char) : Bool :=
  match cs with
  | [] => false
  | c :: rest =>
    c.isUpper &&
      (let mid := rest.takeWhile isUpperDigit
       let after := rest.dropWhile isUpperDigit
       !mid.isEmpty &&
         match after with
         | '-' :: ds => !ds.isEmpty && ds.all Char.isDigit
         | _ => false)

/-- `is_key` from the source: `bool(s and KEY_RE.match(s.strip()))`. -/
def is_key (s : String) : Bool :=
  !(s == "") && keyMatch (pyStrip s).data

/-! ## The XML element model

`xml.etree.ElementTree` elements: a tag, an attribute list, the text that
appears *before the first child element* (`Element.text`, `none` when there
is no such text), and the list of child elements.  Inter-child tails are not
read by any function modelled here. -/

inductive Elem : Type where
  | mk (tag : String) (attrs : List (String × String)) (text : Option String)
      (children : List Elem)

def Elem.tag : Elem → String
  | .mk t _ _ _ => t

def Elem.attrs : Elem → List (String × String)
  | .mk _ a _ _ => a

def Elem.text : Elem → Option String
  | .mk _ _ x _ => x

def Elem.children : Elem → List Elem
  | .mk _ _ _ ch => ch

/-- `el.get(name)` on the attribute dictionary: first binding wins. -/
def attrGet (el : Elem) (name : String) : Option String :=
  (el.attrs.find? fun p => p.1 = name).map Prod.snd

/-- Characters after the first occurrence of `c`, if any. -/
def afterFirst (c : Char) : List Char → Option (List Char)
  | [] => none
  | d :: rest => if d = c then some rest else afterFirst c rest

/-- `local_name` from the source: strip a `{namespace}` brace prefix, then a
`prefix:` colon prefix. -/
def local_name (tag : String) : String :=
  let cs := tag.data
  let cs1 := ((afterFirst '}' cs).getD cs)
  ⟨(afterFirst ':' cs1).getD cs1⟩

/-- `text_of` from the source: the element's direct leading text, stripped;
empty for a missing element or missing text. -/
def text_of : Option Elem → String
  | none => ""
  | some el =>
    match el.text with
    | none => ""
    | some t => pyStrip t

/-- `find_child` from the source: first immediate child whose local name is
`name`. -/
def find_child (parent : Elem) (name : String) : Option Elem :=
  parent.children.find? fun ch => local_name ch.tag = name

/-- `find_text` from the source. -/
def find_text (parent : Elem) (name : String) : String :=
  text_of (find_child parent name)

mutual

/-- `Element.iter()`: the element followed by all descendants, depth-first in
document order. -/
def iterElems : Elem → List Elem
  | .mk t a x ch => .mk t a x ch :: iterList ch

/-- Depth-first traversal of a list of sibling elements. -/
def iterList : List Elem → List Elem
  | [] => []
  | e :: rest => iterElems e ++ iterList rest

end

/-! ## The text sanitizer `strip_html`

`strip_html` feeds the string to a `html.parser.HTMLParser` subclass that
collects the stripped non-blank data chunks, joins them with single spaces,
collapses whitespace runs and strips.  The tokenizer below models CPython's
`HTMLParser.goahead(0)` with the default `convert_charrefs=True` (as invoked
by a single `feed` with no `close`, exactly as the source does):

* text up to the next `'<'` is a data chunk, with character references
  unescaped;
* when no `'<'` remains, a trailing run containing a `'&'` not followed by
  whitespace or `';'` within the last 34 characters is buffered (never
  emitted, since `close` is not called);
* `'<'` followed by an ASCII letter, `'/'`, `'!'` or `'?'` opens a tag /
  end tag / declaration / processing instruction, consumed up to the next
  `'>'` and producing no data; if no `'>'` follows, the tail is buffered;
* a `'<'` followed by anything else is emitted as a literal data chunk when
  a next character exists, and buffered at end of input.

Simplifications (not exercised by any theorem below): `'>'` inside quoted
attribute values or comments is treated as the tag terminator, the CDATA
content mode of `<script>`/`<style>` is not modelled, and `unescapeChars`
handles the basic semicolon-terminated references only. -/

/-- Character-reference unescaping (the basic subset of `html.unescape`). -/
def unescapeChars : List Char → List Char
  | [] => []
  | '&' :: 'a' :: 'm' :: 'p' :: ';' :: rest => '&' :: unescapeChars rest
  | '&' :: 'l' :: 't' :: ';' :: rest => '<' :: unescapeChars rest
  | '&' :: 'g' :: 't' :: ';' :: rest => '>' :: unescapeChars rest
  | '&' :: 'q' :: 'u' :: 'o' :: 't' :: ';' :: rest => '"' :: unescapeChars rest
  | c :: rest => c :: unescapeChars rest

/-- The `convert_charrefs` buffering test: in the last 34 characters, is
there a `'&'` with no whitespace and no `';'` anywhere after it?  If so the
parser waits for more input, and the tail is never emitted. -/
def bufferTailAmp (cs : List Char) : Bool :=
  let region := cs.drop (cs.length - 34)
  let r := region.reverse
  if '&' ∈ r then
    (r.takeWhile fun c => c ≠ '&').all fun c => !pyIsSpace c && c ≠ ';'
  else false

/-- One pass of `HTMLParser.goahead(0)`: the list of data chunks passed to
`handle_data`.  `fuel` bounds the recursion; it is called with
`length + 1`, which always suffices since every step consumes input. -/
def goaheadAux : Nat → List Char → List (List Char)
  | 0, _ => []
  | fuel + 1, cs =>
    match List.findIdx? (fun c => c = '<') cs with
    | none =>
      if bufferTailAmp cs then []
      else if cs.isEmpty then [] else [unescapeChars cs]
    | some j =>
      let dataPart := cs.take j
      let emitted := if dataPart.isEmpty then [] else [unescapeChars dataPart]
      emitted ++
        (match cs.drop j with
         | [] => []
         | _lt :: r =>
           match r with
           | [] => []
           | c :: _ =>
             if c.isAlpha || c = '/' || c = '!' || c = '?' then
               match afterFirst '>' r with
               | none => []
               | some r2 => goaheadAux fuel r2
             else ['<'] :: goaheadAux fuel r)

/-- The data chunks that `_HTMLStripper.handle_data` receives. -/
def htmlChunks (s : String) : List String :=
  (goaheadAux (s.data.length + 1) s.data).map fun cs => ⟨cs⟩

/-- `_HTMLStripper._parts`: each non-blank chunk, stripped. -/
def stripperParts (s : String) : List String :=
  (htmlChunks s).filterMap fun d =>
    if pyStrip d = "" then none else some (pyStrip d)

/-- `strip_html` from the source: empty for falsy input, otherwise the parts
joined by single spaces, whitespace-collapsed and stripped. -/
def strip_html (s : String) : String :=
  if s = "" then ""
  else pyStrip (pyCollapse (pyJoin " " (stripperParts s)))

/-! ## Field extractors -/

/-- The texts recovered from the descendants of a blank `customfieldvalue`
node (the inner `for d in v.iter()` loop): every stripped non-blank direct
text in the subtree, in document order. -/
def valueTexts (v : Elem) : List String :=
  (iterElems v).filterMap fun d =>
    match d.text with
    | none => none
    | some t => if pyStrip t = "" then none else some (pyStrip t)

/-- The raw value list collected from one `customfieldvalues` container: for
every descendant tagged `customfieldvalue` (the container's `iter()`,
including nested values), its stripped text if non-blank, otherwise the
stripped texts of its descendants. -/
def collectValues (c : Elem) : List String :=
  ((iterElems c).map fun v =>
    if local_name v.tag = "customfieldvalue" then
      match v.text with
      | none => valueTexts v
      | some t => if pyStrip t = "" then valueTexts v else [pyStrip t]
    else []).flatten

/-- The `for c in list(cf)` loop of `extract_customfields`: the last
`customfieldname` text wins; values accumulate across every
`customfieldvalues` child in order. -/
def cfNameAndValues (cf : Elem) : String × List String :=
  cf.children.foldl
    (fun acc c =>
      if local_name c.tag = "customfieldname" then (text_of (some c), acc.2)
      else if local_name c.tag = "customfieldvalues" then
        (acc.1, acc.2 ++ collectValues c)
      else acc)
    ("", [])

/-- The cleaning loop of `extract_customfields`: whitespace-normalize each
value, drop blanks, deduplicate by exact value keeping first-seen order. -/
def cleanValsAux : List String → List String → List String
  | _, [] => []
  | seen, v :: rest =>
    let val := pyStrip (pyCollapse v)
    if val = "" then cleanValsAux seen rest
    else if val ∈ seen then cleanValsAux seen rest
    else val :: cleanValsAux (val :: seen) rest

/-- `clean_vals` for one custom field. -/
def cleanVals (vals : List String) : List String :=
  cleanValsAux [] vals

/-- Python `dict` assignment `out[name] = v`: replace in place if the key is
present, otherwise append. -/
def cfSet : List (String × List String) → String → List String →
    List (String × List String)
  | [], k, v => [(k, v)]
  | (k', v') :: rest, k, v =>
    if k' = k then (k, v) :: rest else (k', v') :: cfSet rest k v

/-- `extract_customfields` from the source. -/
def extract_customfields (item : Elem) : List (String × List String) :=
  match find_child item "customfields" with
  | none => []
  | some cfs =>
    cfs.children.foldl
      (fun out cf =>
        if local_name cf.tag = "customfield" then
          let nv := cfNameAndValues cf
          if nv.1 ≠ "" then cfSet out nv.1 (cleanVals nv.2) else out
        else out)
      []

/-- `extract_comments_text` from the source: sanitize the text of every
descendant tagged `comment`, join the non-empty ones with newlines, strip. -/
def extract_comments_text (item : Elem) : String :=
  match find_child item "comments" with
  | none => ""
  | some comments =>
    let parts := (iterElems comments).filterMap fun c =>
      if local_name c.tag = "comment" then some (strip_html (text_of (some c)))
      else none
    pyStrip (pyJoin "\n" (parts.filter fun p => p ≠ ""))

/-- `extract_parent_key` from the source: prefer the nested `key` child's
text, fall back to the parent node's own text; keep only a pattern-valid
key. -/
def extract_parent_key (item : Elem) : String :=
  match find_child item "parent" with
  | none => ""
  | some parent =>
    let pk := if find_text parent "key" ≠ "" then find_text parent "key"
      else text_of (some parent)
    if is_key pk then pyStrip pk else ""

/-- `extract_subtasks` from the source: the pattern-valid `key` texts of the
immediate `subtask` children, in document order, without deduplication. -/
def extract_subtasks (item : Elem) : List String :=
  match find_child item "subtasks" with
  | none => []
  | some subtasksEl =>
    subtasksEl.children.filterMap fun st =>
      if local_name st.tag = "subtask" then
        let k := find_text st "key"
        if is_key k then some (pyStrip k) else none
      else none

/-- `extract_project` from the source: `none` models the empty dict returned
when there is no `project` child; otherwise the stripped `id` and `key`
attributes and the node's text as `name`. -/
def extract_project (item : Elem) : Option (String × String × String) :=
  match find_child item "project" with
  | none => none
  | some proj =>
    some (pyStrip ((attrGet proj "id").getD ""),
      pyStrip ((attrGet proj "key").getD ""),
      text_of (some proj))

/-! ## JSON-like values and `node_weight` -/

/-- The Python values that appear in an issue dict: strings, lists, dicts
(with insertion order), and other scalars. -/
inductive JVal : Type where
  | str (s : String)
  | arr (xs : List JVal)
  | obj (fields : List (String × JVal))
  | intVal (n : Int)
  | boolVal (b : Bool)
  | nullVal

mutual

/-- `node_weight` from the source: a dict weighs the sum of its values'
weights plus ten per entry, a list the sum of its elements' weights plus
five per element, a string its length, any other scalar `1`. -/
def node_weight : JVal → Nat
  | .obj fields => nodeWeightFields fields + fields.length * 10
  | .arr xs => nodeWeightList xs + xs.length * 5
  | .str s => s.length
  | .intVal _ => 1
  | .boolVal _ => 1
  | .nullVal => 1

/-- Sum of `node_weight` over a list of values. -/
def nodeWeightList : List JVal → Nat
  | [] => 0
  | v :: rest => node_weight v + nodeWeightList rest

/-- Sum of `node_weight` over a dict's values. -/
def nodeWeightFields : List (String × JVal) → Nat
  | [] => 0
  | (_, v) :: rest => node_weight v + nodeWeightFields rest

end

/-! ## The record (issue dict) and the search text -/

/-- The two driver switches consumed by the core. -/
structure Options where
  include_customfields : Bool
  include_raw_item_xml : Bool

/-- The normalized record assembled by `item_to_issue_dict`, with one typed
field per dict key.  `project = none` models the empty dict from
`extract_project`; `customfields`/`raw_item_xml` are present exactly when
the corresponding switch is on. -/
structure Issue where
  key : String
  type_ : String
  summary : String
  title : String
  status : String
  priority : String
  assignee : String
  reporter : String
  created : String
  updated : String
  project : Option (String × String × String)
  parent : String
  subtasks : List String
  description_text : String
  comments_text : String
  source_file : String
  customfields : Option (List (String × List String))
  raw_item_xml : Option String
  text : String

/-- The `add` helper of `build_search_text`: skip a missing value and a
blank string, otherwise emit one `LABEL: value` line. -/
def addLine (k : String) (v : Option String) : List String :=
  match v with
  | none => []
  | some s => if pyStrip s = "" then [] else [k ++ ": " ++ s]

/-- Lookup in the custom-field dict. -/
def cfGet : List (String × List String) → String → Option (List String)
  | [], _ => none
  | (k', v) :: rest, k => if k' = k then some v else cfGet rest k

/-- The `CUSTOMFIELDS:` section of the search text. -/
def cfSection (cfs : List (String × List String)) : List String :=
  if cfs.isEmpty then []
  else
    "" :: "CUSTOMFIELDS:" ::
      ((List.insertionSort (fun a b => pyStrLe (pyLower a) (pyLower b) = true)
          (cfs.map Prod.fst)).filterMap
        fun name =>
          match cfGet cfs name with
          | none => none
          | some vals =>
            if vals.isEmpty then none
            else some ("- " ++ name ++ ": " ++ pyJoin ", " vals))

/-- The list `lines` assembled by `build_search_text`, in source order. -/
def buildSearchLines (issue : Issue) (include_customfields : Bool) : List String :=
  addLine "KEY" (some issue.key) ++
  addLine "TYPE" (some issue.type_) ++
  addLine "SUMMARY" (some issue.summary) ++
  addLine "STATUS" (some issue.status) ++
  addLine "PRIORITY" (some issue.priority) ++
  addLine "ASSIGNEE" (some issue.assignee) ++
  addLine "REPORTER" (some issue.reporter) ++
  addLine "CREATED" (some issue.created) ++
  addLine "UPDATED" (some issue.updated) ++
  (match issue.project with
   | none => []
   | some p =>
     (if p.2.1 ≠ "" then addLine "PROJECT" (some p.2.1) else []) ++
     (if p.2.2 ≠ "" then addLine "PROJECT_NAME" (some p.2.2) else [])) ++
  (if issue.parent ≠ "" then addLine "PARENT" (some issue.parent) else []) ++
  (if issue.subtasks ≠ [] then addLine "SUBTASKS" (some (pyJoin ", " issue.subtasks))
   else []) ++
  (if include_customfields then
    match issue.customfields with
    | none => []
    | some cfs => cfSection cfs
   else []) ++
  (if issue.description_text ≠ "" then ["", "DESCRIPTION:", issue.description_text]
   else []) ++
  (if issue.comments_text ≠ "" then ["", "COMMENTS:", issue.comments_text] else [])

/-- `build_search_text` from the source: the lines joined by newlines and
stripped. -/
def build_search_text (issue : Issue) (include_customfields : Bool) : String :=
  pyStrip (pyJoin "\n" (buildSearchLines issue include_customfields))

/-- Simplified model of `ET.tostring(item, encoding="unicode")`: a verbatim
rendering of the node (no escaping or tail text).  No theorem below depends
on the rendered string itself, only on it being a function of the node. -/
def serializeAttrs : List (String × String) → String
  | [] => ""
  | (k, v) :: rest => " " ++ k ++ "=" ++ "\"" ++ v ++ "\"" ++ serializeAttrs rest

mutual

/-- Render one element. -/
def serializeElem : Elem → String
  | .mk t a x ch =>
    "<" ++ t ++ serializeAttrs a ++ ">" ++ (x.getD "") ++ serializeList ch ++
      "</" ++ t ++ ">"

/-- Render a list of sibling elements. -/
def serializeList : List Elem → String
  | [] => ""
  | e :: rest => serializeElem e ++ serializeList rest

end

/-- The record literal assembled by `item_to_issue_dict` before its `text`
key is added (`text` still empty here). -/
def assembleIssue (item : Elem) (source_file : String) (opts : Options) : Issue :=
  let summary := pyStrip (find_text item "summary")
  let title := pyStrip (find_text item "title")
  { key := pyStrip (find_text item "key")
    type_ := pyStrip (text_of (find_child item "type"))
    summary := if summary ≠ "" then summary else strip_html title
    title := strip_html title
    status := pyStrip (text_of (find_child item "status"))
    priority := pyStrip (text_of (find_child item "priority"))
    assignee := pyStrip (text_of (find_child item "assignee"))
    reporter := pyStrip (text_of (find_child item "reporter"))
    created := pyStrip (find_text item "created")
    updated := pyStrip (find_text item "updated")
    project := extract_project item
    parent := extract_parent_key item
    subtasks := extract_subtasks item
    description_text := strip_html (find_text item "description")
    comments_text := extract_comments_text item
    source_file := source_file
    customfields :=
      if opts.include_customfields then some (extract_customfields item) else none
    raw_item_xml :=
      if opts.include_raw_item_xml then some (serializeElem item) else none
    text := "" }

/-- The fully built record: `issue["text"] = build_search_text(issue, ...)`
(`build_search_text` never reads `text` itself, so passing the pre-`text`
record is exact). -/
def builtIssue (item : Elem) (source_file : String) (opts : Options) : Issue :=
  { assembleIssue item source_file opts with
    text := build_search_text (assembleIssue item source_file opts)
      opts.include_customfields }

/-- `item_to_issue_dict` from the source: reject unless the stripped `key`
text matches the key pattern, otherwise assemble the record and derive its
search text. -/
def item_to_issue_dict (item : Elem) (source_file : String) (opts : Options) :
    Option Issue :=
  let key := pyStrip (find_text item "key")
  if is_key key then some (builtIssue item source_file opts) else none

/-- The issue dict as a JSON-like value, entries in insertion order (the
literal keys, then the two optional keys, then `text`). -/
def projToJVal : Option (String × String × String) → JVal
  | none => .obj []
  | some (i, k, n) => .obj [("id", .str i), ("key", .str k), ("name", .str n)]

/-- The custom-field dict as a JSON-like value. -/
def cfsToJVal (cfs : List (String × List String)) : JVal :=
  .obj (cfs.map fun p => (p.1, .arr (p.2.map JVal.str)))

/-- The full record as the dict that `main` stores and weighs. -/
def issueToJVal (i : Issue) : JVal :=
  .obj ([("key", .str i.key), ("type", .str i.type_), ("summary", .str i.summary),
    ("title", .str i.title), ("status", .str i.status),
    ("priority", .str i.priority), ("assignee", .str i.assignee),
    ("reporter", .str i.reporter), ("created", .str i.created),
    ("updated", .str i.updated), ("project", projToJVal i.project),
    ("parent", .str i.parent), ("subtasks", .arr (i.subtasks.map JVal.str)),
    ("description_text", .str i.description_text),
    ("comments_text", .str i.comments_text),
    ("source_file", .str i.source_file)] ++
    (match i.customfields with
     | none => []
     | some cfs => [("customfields", cfsToJVal cfs)]) ++
    (match i.raw_item_xml with
     | none => []
     | some raw => [("raw_item_xml", .str raw)]) ++
    [("text", .str i.text)])

/-! ## The deduplicating aggregator (`issues_by_key` in `main`) -/

/-- Python dict lookup (`dict.get`). -/
def dget : List (String × JVal) → String → Option JVal
  | [], _ => none
  | (k', v) :: rest, k => if k' = k then some v else dget rest k

/-- Python dict assignment: replace in place, else append. -/
def dset : List (String × JVal) → String → JVal → List (String × JVal)
  | [], k, v => [(k, v)]
  | (k', v') :: rest, k, v =>
    if k' = k then (k, v) :: rest else (k', v') :: dset rest k v

/-- `issue["key"]`: the business key of a stored record. -/
def issueKey (j : JVal) : String :=
  match j with
  | .obj fields =>
    match dget fields "key" with
    | some (.str s) => s
    | _ => ""
  | _ => ""

/-- One `offer` step of the aggregator (`main`, the duplicate-resolution
branch): insert an unseen key; replace only on strictly greater weight. -/
def offer (st : List (String × JVal)) (issue : JVal) : List (String × JVal) :=
  let k := issueKey issue
  match dget st k with
  | none => dset st k issue
  | some prev =>
    if node_weight issue > node_weight prev then dset st k issue else st

/-- Offer a sequence of records in order. -/
def offerAll (st : List (String × JVal)) (issues : List JVal) :
    List (String × JVal) :=
  issues.foldl offer st

/-- The keys of the aggregate, in insertion order. -/
def dictKeys (st : List (String × JVal)) : List String :=
  st.map Prod.fst

/-- `sorted(issues_by_key.keys())`: ordinal ascending (`insertionSort` is
stable like Python's sort; on the duplicate-free key list stability is moot). -/
def sortedKeys (st : List (String × JVal)) : List String :=
  List.insertionSort (fun a b : String => pyStrLe a b = true) (dictKeys st)

/-- `[issues_by_key[k] for k in sorted(issues_by_key.keys())]`. -/
def finalize (st : List (String × JVal)) : List JVal :=
  (sortedKeys st).filterMap (dget st)

/-! ## Concrete inputs and spec-side definitions used by the claims -/

/-- A field value wrapped in further markup: the text `"Hello "` sits before
the child element and `"World"` inside it. -/
def c10Summary : Elem :=
  .mk "summary" [] (some "Hello ") [.mk "b" [] (some "World") []]

/-- An item whose summary's textual content lies partly inside a child. -/
def c10Item : Elem := .mk "item" [] none [c10Summary]

/-- The minimal item of the end-to-end example: a `key` field reading
`PROJ-1` and a `summary` field whose value is the string
`Hello <b>World</b>`. -/
def c1Item : Elem :=
  .mk "item" [] none
    [.mk "key" [] (some "PROJ-1") [],
     .mk "summary" [] (some "Hello <b>World</b>") []]

/-- Modelled from the spec's words, for comparison with `KEY_RE`: "one
uppercase letter, one or more uppercase-letters-or-digits, a hyphen, one or
more digits". -/
def keySpecProp (cs : List Char) : Prop :=
  ∃ c mid ds, cs = c :: (mid ++ '-' :: ds) ∧ c.isUpper = true ∧ mid ≠ [] ∧
    (∀ d ∈ mid, isUpperDigit d = true) ∧ ds ≠ [] ∧ ∀ d ∈ ds, d.isDigit = true

/-- A character that the sanitizer treats as plain data in every position:
neither a tag opener nor a character-reference opener. -/
def noMarkupChar (c : Char) : Bool :=
  !(c = '<') && !(c = '&')

/-- A string with no `<` and no `&`. -/
def noMarkup (s : String) : Bool :=
  s.data.all noMarkupChar

/-- An item with one custom field named `n` (as the `customfieldname` text)
whose `customfieldvalues` children are `vals`. -/
def mkCfItem (n : String) (vals : List Elem) : Elem :=
  .mk "item" [] none
    [.mk "customfields" [] none
      [.mk "customfield" [] none
        [.mk "customfieldname" [] (some n) [],
         .mk "customfieldvalues" [] none vals]]]

/-- The value list `["a", "a ", " b", "a"]` of the C7 example. -/
def c7Values : List Elem :=
  [.mk "customfieldvalue" [] (some "a") [],
   .mk "customfieldvalue" [] (some "a ") [],
   .mk "customfieldvalue" [] (some " b") [],
   .mk "customfieldvalue" [] (some "a") []]

/-- A record with a blank priority whose multi-line summary injects a
`PRIORITY: urgent` line and a bare `STATUS: ` line into the rendered text. -/
def c8Issue : Issue :=
  { key := "PROJ-9", type_ := "", summary := "A\nPRIORITY: urgent\nSTATUS: \nB",
    title := "", status := "", priority := "", assignee := "", reporter := "",
    created := "", updated := "", project := none, parent := "", subtasks := [],
    description_text := "", comments_text := "", source_file := "f.xml",
    customfields := none, raw_item_xml := none, text := "" }

/-- A record carrying only its business key, used for aggregator ordering
examples. -/
def keyedRec (k : String) : JVal :=
  .obj [("key", .str k)]

/-- The normalization `strip_html` applies to a single markup-free data
chunk: strip, collapse whitespace runs, strip. -/
def canonStr (s : String) : String :=
  ⟨stripChars (collapseChars (stripChars s.data))⟩

/-- Every whitespace character in the list is a plain space. -/
def spacesCanonical (l : List Char) : Bool :=
  l.all fun c => !pyIsSpace c || c = ' '

/-- No two adjacent whitespace characters. -/
def noAdjWs : List Char → Bool
  | [] => true
  | [_] => true
  | c :: d :: rest => (!(pyIsSpace c && pyIsSpace d)) && noAdjWs (d :: rest)

/-! ## General lemmas -/

theorem nodeWeightList_eq_sum (l : List JVal) :
    nodeWeightList l = (l.map node_weight).sum := by
  induction l with
  | nil => rfl
  | cons v t ih => simp [nodeWeightList, ih]

theorem nodeWeightFields_eq_sum (l : List (String × JVal)) :
    nodeWeightFields l = (l.map fun p => node_weight p.2).sum := by
  induction l with
  | nil => rfl
  | cons p t ih => obtain ⟨k, v⟩ := p; simp [nodeWeightFields, ih]

theorem nodeWeightFields_append (l1 l2 : List (String × JVal)) :
    nodeWeightFields (l1 ++ l2) = nodeWeightFields l1 + nodeWeightFields l2 := by
  simp [nodeWeightFields_eq_sum]

theorem dget_dset_self (st : List (String × JVal)) (k : String) (v : JVal) :
    dget (dset st k v) k = some v := by
  induction st with
  | nil => simp [dset, dget]
  | cons h t ih =>
    obtain ⟨k', v'⟩ := h
    by_cases hk : k' = k <;> simp [dset, dget, hk, ih]

theorem dget_dset_ne (st : List (String × JVal)) (k k' : String) (v : JVal)
    (h : k' ≠ k) : dget (dset st k v) k' = dget st k' := by
  induction st with
  | nil =>
    simp only [dset, dget]
    rw [if_neg fun hc => h hc.symm]
  | cons hd t ih =>
    obtain ⟨k0, v0⟩ := hd
    by_cases hk : k0 = k
    · subst hk
      simp only [dset, if_pos rfl, dget]
      rw [if_neg fun hc => h hc.symm, if_neg fun hc => h hc.symm]
    · simp only [dset, if_neg hk, dget]
      by_cases hk' : k0 = k' <;> simp [hk', ih]

/-! ## C5: the structural weight rule -/

/-- C5: `node_weight` implements exactly the documented rule: a mapping
weighs the sum of its values' weights plus ten times its entry count, a
sequence the sum of its elements' weights plus five times its length, a text
value its character length, and any other scalar weighs one. -/
theorem c5_node_weight_rule :
    (∀ fields : List (String × JVal),
      node_weight (.obj fields) =
        (fields.map fun p => node_weight p.2).sum + 10 * fields.length) ∧
    (∀ xs : List JVal,
      node_weight (.arr xs) = (xs.map node_weight).sum + 5 * xs.length) ∧
    (∀ s : String, node_weight (.str s) = s.length) ∧
    (∀ n : Int, node_weight (.intVal n) = 1) ∧
    (∀ b : Bool, node_weight (.boolVal b) = 1) ∧
    node_weight .nullVal = 1 := by
  refine ⟨fun fields => ?_, fun xs => ?_, fun s => rfl, fun n => rfl, fun b => rfl, rfl⟩
  · simp [node_weight, nodeWeightFields_eq_sum]; ring
  · simp [node_weight, nodeWeightList_eq_sum]; ring

/-! ## C10: the tree navigator reads only direct leading text -/

/-- C10: `text_of` returns only an element's direct leading text, stripped —
it is the empty string when that text is absent and is invariant under the
element's children, so `find_text` (text content of first child) truncates
any value whose text continues inside nested markup; concretely the summary
`Hello <b>World</b>` (as markup) reads back as just `"Hello"`. -/
theorem c10_text_of_direct_text_only :
    (∀ (tag : String) (attrs : List (String × String)) (t : String)
        (ch : List Elem),
      text_of (some (Elem.mk tag attrs (some t) ch)) = pyStrip t) ∧
    (∀ (tag : String) (attrs : List (String × String)) (ch : List Elem),
      text_of (some (Elem.mk tag attrs none ch)) = "") ∧
    (∀ (tag : String) (attrs : List (String × String)) (t : Option String)
        (ch1 ch2 : List Elem),
      text_of (some (Elem.mk tag attrs t ch1)) =
        text_of (some (Elem.mk tag attrs t ch2))) ∧
    (∀ (parent : Elem) (name : String),
      find_text parent name = text_of (find_child parent name)) ∧
    find_text c10Item "summary" = "Hello" := by
  refine ⟨fun tag attrs t ch => rfl, fun tag attrs ch => rfl,
    fun tag attrs t ch1 ch2 => ?_, fun parent name => rfl, by decide⟩
  cases t <;> rfl

/-! ## C4: the deduplicating aggregator -/

/-- C4: `offer` inserts an unseen key, replaces the stored record only on
strictly greater weight (ties keep the first-seen record), and on one key
the weight sequence [5, 5, 8, 3] retains the weight-8 record while [5, 5]
retains the first record. -/
theorem c4_offer_dedup :
    (∀ (st : List (String × JVal)) (r : JVal),
      dget st (issueKey r) = none → dget (offer st r) (issueKey r) = some r) ∧
    (∀ (st : List (String × JVal)) (r p : JVal),
      dget st (issueKey r) = some p →
      dget (offer st r) (issueKey r) =
        some (if node_weight p < node_weight r then r else p)) ∧
    (∀ r1 r2 r3 r4 : JVal,
      issueKey r2 = issueKey r1 → issueKey r3 = issueKey r1 →
      issueKey r4 = issueKey r1 →
      node_weight r1 = 5 → node_weight r2 = 5 → node_weight r3 = 8 →
      node_weight r4 = 3 →
      dget (offerAll [] [r1, r2, r3, r4]) (issueKey r1) = some r3 ∧
      dget (offerAll [] [r1, r2]) (issueKey r1) = some r1) := by
  have hnone : ∀ (st : List (String × JVal)) (r : JVal),
      dget st (issueKey r) = none → dget (offer st r) (issueKey r) = some r := by
    intro st r h
    simp [offer, h, dget_dset_self]
  have hsome : ∀ (st : List (String × JVal)) (r p : JVal),
      dget st (issueKey r) = some p →
      dget (offer st r) (issueKey r) =
        some (if node_weight p < node_weight r then r else p) := by
    intro st r p h
    simp only [offer, h]
    by_cases hw : node_weight p < node_weight r
    · simp [hw, dget_dset_self]
    · simp [hw, h]
  refine ⟨hnone, hsome, fun r1 r2 r3 r4 h2 h3 h4 w1 w2 w3 w4 => ?_⟩
  have s1 : offer [] r1 = [(issueKey r1, r1)] := by simp [offer, dget, dset]
  have g1 : dget [(issueKey r1, r1)] (issueKey r1) = some r1 := by
    simp [dget]
  have s2 : offer [(issueKey r1, r1)] r2 = [(issueKey r1, r1)] := by
    simp [offer, h2, g1, w1, w2]
  have s3 : offer [(issueKey r1, r1)] r3 = [(issueKey r1, r3)] := by
    simp [offer, h3, g1, w1, w3, dset]
  have g3 : dget [(issueKey r1, r3)] (issueKey r1) = some r3 := by
    simp [dget]
  have s4 : offer [(issueKey r1, r3)] r4 = [(issueKey r1, r3)] := by
    simp [offer, h4, g3, w3, w4]
  constructor
  · show dget (offer (offer (offer (offer [] r1) r2) r3) r4) (issueKey r1) = some r3
    rw [s1, s2, s3, s4, g3]
  · show dget (offer (offer [] r1) r2) (issueKey r1) = some r1
    rw [s1, s2, g1]

/-! ## Whitespace-stripping lemmas -/

theorem dropWhile_head?_false (p : Char → Bool) (l : List Char) (c : Char)
    (h : (l.dropWhile p).head? = some c) : p c = false := by
  induction l with
  | nil => simp [List.dropWhile] at h
  | cons a t ih =>
    by_cases hp : p a = true
    · rw [List.dropWhile_cons, if_pos hp] at h
      exact ih h
    · rw [List.dropWhile_cons, if_neg hp] at h
      simp only [List.head?_cons, Option.some.injEq] at h
      subst h
      exact Bool.eq_false_iff.mpr hp

theorem dropWhile_eq_self_of_head? (p : Char → Bool) (l : List Char)
    (h : ∀ c, l.head? = some c → p c = false) : l.dropWhile p = l := by
  cases l with
  | nil => rfl
  | cons a t => simp [List.dropWhile_cons, h a rfl]

theorem dropTrailing_prefix_self (p : Char → Bool) (l : List Char) :
    dropTrailing p l <+: l := by
  have h2 : l.reverse.dropWhile p <:+ l.reverse := List.dropWhile_suffix p
  have h3 := List.reverse_prefix.mpr h2
  rw [List.reverse_reverse] at h3
  exact h3

theorem getLast?_dropTrailing_false (p : Char → Bool) (l : List Char) (c : Char)
    (h : (dropTrailing p l).getLast? = some c) : p c = false := by
  unfold dropTrailing at h
  rw [← List.head?_reverse, List.reverse_reverse] at h
  exact dropWhile_head?_false p l.reverse c h

theorem dropTrailing_eq_self (p : Char → Bool) (l : List Char)
    (h : ∀ c, l.getLast? = some c → p c = false) : dropTrailing p l = l := by
  unfold dropTrailing
  rw [dropWhile_eq_self_of_head? p l.reverse, List.reverse_reverse]
  intro c hc
  exact h c (by rwa [List.head?_reverse] at hc)

theorem prefix_head?_eq (y x : List Char) (hp : y <+: x) (c : Char)
    (h : y.head? = some c) : x.head? = some c := by
  obtain ⟨t, rfl⟩ := hp
  cases y with
  | nil => simp at h
  | cons a ys => simpa using h

theorem stripChars_head?_false (cs : List Char) (c : Char)
    (h : (stripChars cs).head? = some c) : pyIsSpace c = false := by
  unfold stripChars at h
  have hpfx := dropTrailing_prefix_self pyIsSpace (cs.dropWhile pyIsSpace)
  exact dropWhile_head?_false pyIsSpace cs c
    (prefix_head?_eq _ _ hpfx c h)

theorem stripChars_getLast?_false (cs : List Char) (c : Char)
    (h : (stripChars cs).getLast? = some c) : pyIsSpace c = false :=
  getLast?_dropTrailing_false _ _ _ h

theorem stripChars_idem (cs : List Char) :
    stripChars (stripChars cs) = stripChars cs := by
  have h1 : (stripChars cs).dropWhile pyIsSpace = stripChars cs :=
    dropWhile_eq_self_of_head? _ _ fun c hc => stripChars_head?_false cs c hc
  have h2 : dropTrailing pyIsSpace (stripChars cs) = stripChars cs :=
    dropTrailing_eq_self _ _ fun c hc => stripChars_getLast?_false cs c hc
  calc stripChars (stripChars cs)
      = dropTrailing pyIsSpace ((stripChars cs).dropWhile pyIsSpace) := rfl
    _ = dropTrailing pyIsSpace (stripChars cs) := by rw [h1]
    _ = stripChars cs := h2

theorem pyStrip_idem (s : String) : pyStrip (pyStrip s) = pyStrip s := by
  simp [pyStrip, stripChars_idem]

/-! ## C1: the end-to-end minimal item -/

/-- C1 counterexample: the record's summary is NOT `Hello World` and the
derived text is NOT `KEY: PROJ-1\nSUMMARY: Hello World`, with
custom-attribute inclusion on or off — the sanitizer is never applied to a
non-empty summary. -/
theorem c1_counterexample :
    (item_to_issue_dict c1Item "export.xml" ⟨false, false⟩).map Issue.summary ≠
      some "Hello World" ∧
    (item_to_issue_dict c1Item "export.xml" ⟨true, false⟩).map Issue.summary ≠
      some "Hello World" ∧
    (item_to_issue_dict c1Item "export.xml" ⟨false, false⟩).map Issue.text ≠
      some "KEY: PROJ-1\nSUMMARY: Hello World" ∧
    (item_to_issue_dict c1Item "export.xml" ⟨true, false⟩).map Issue.text ≠
      some "KEY: PROJ-1\nSUMMARY: Hello World" := by
  refine ⟨by decide, by decide, by decide, by decide⟩

/-- C1 amended: the record's summary is the verbatim field value
`Hello <b>World</b>` (the sanitizer is applied only to the `title` fallback
and to `description`), and the derived search text is exactly
`KEY: PROJ-1\nSUMMARY: Hello <b>World</b>`, with custom-attribute inclusion
on or off. -/
theorem c1_minimal_item_end_to_end :
    (item_to_issue_dict c1Item "export.xml" ⟨false, false⟩).map Issue.summary =
      some "Hello <b>World</b>" ∧
    (item_to_issue_dict c1Item "export.xml" ⟨true, false⟩).map Issue.summary =
      some "Hello <b>World</b>" ∧
    (item_to_issue_dict c1Item "export.xml" ⟨false, false⟩).map Issue.text =
      some "KEY: PROJ-1\nSUMMARY: Hello <b>World</b>" ∧
    (item_to_issue_dict c1Item "export.xml" ⟨true, false⟩).map Issue.text =
      some "KEY: PROJ-1\nSUMMARY: Hello <b>World</b>" := by
  refine ⟨by decide, by decide, by decide, by decide⟩

/-! ## C3: the single validation gate -/

theorem takeWhile_all_append (p : Char → Bool) (l1 l2 : List Char) (y : Char)
    (h1 : ∀ x ∈ l1, p x = true) (hy : p y = false) :
    (l1 ++ y :: l2).takeWhile p = l1 ∧ (l1 ++ y :: l2).dropWhile p = y :: l2 := by
  induction l1 with
  | nil => simp [List.takeWhile_cons, List.dropWhile_cons, hy]
  | cons a t ih =>
    have ha : p a = true := h1 a (by simp)
    have iht := ih fun x hx => h1 x (by simp [hx])
    simp [List.takeWhile_cons, List.dropWhile_cons, ha, iht.1, iht.2]

theorem keyMatch_iff_spec (cs : List Char) :
    keyMatch cs = true ↔ keySpecProp cs := by
  constructor
  · intro h
    cases cs with
    | nil => simp [keyMatch] at h
    | cons c rest =>
      simp only [keyMatch, Bool.and_eq_true, Bool.not_eq_true'] at h
      obtain ⟨hc, hmid, hmatch⟩ := h
      rcases hd : rest.dropWhile isUpperDigit with _ | ⟨a, ds⟩
      · rw [hd] at hmatch
        simp at hmatch
      · rw [hd] at hmatch
        by_cases ha : a = '-'
        · subst ha
          simp only [Bool.and_eq_true, Bool.not_eq_true'] at hmatch
          refine ⟨c, rest.takeWhile isUpperDigit, ds, ?_, hc, ?_, ?_, ?_, ?_⟩
          · rw [← hd, List.takeWhile_append_dropWhile]
          · intro he
            rw [he] at hmid
            simp at hmid
          · intro d hdm
            exact List.mem_takeWhile_imp hdm
          · intro he
            rw [he] at hmatch
            simp at hmatch
          · intro d hdm
            exact (List.all_eq_true.mp hmatch.2) d hdm
        · have : (match a :: ds with
              | '-' :: ds => !ds.isEmpty && ds.all Char.isDigit
              | _ => false) = false := by
            cases ds <;> simp_all [ha]
          rw [this] at hmatch
          exact absurd hmatch (by simp)
  · rintro ⟨c, mid, ds, rfl, hc, hmid, hall, hds, hdig⟩
    have h := takeWhile_all_append isUpperDigit mid ds '-' hall (by decide)
    simp only [keyMatch, h.1, h.2, Bool.and_eq_true, Bool.not_eq_true']
    refine ⟨hc, by simpa using hmid, by simpa using hds, List.all_eq_true.mpr hdig⟩

theorem is_key_pyStrip (t : String) :
    is_key (pyStrip t) = keyMatch (pyStrip t).data := by
  by_cases h : pyStrip t = ""
  · rw [h]
    decide
  · simp [is_key, h, pyStrip_idem]

/-- C3: record extraction returns a record if and only if the stripped text
of the item's `key` field matches the pattern "one uppercase letter, then
one or more uppercase letters or digits, then a hyphen, then one or more
digits"; in particular an absent or invalid key yields no record, and no
other field's content affects acceptance (the equivalence holds for every
item, source file and option setting). -/
theorem c3_key_gate (item : Elem) (src : String) (opts : Options) :
    (item_to_issue_dict item src opts).isSome = true ↔
      keySpecProp (pyStrip (find_text item "key")).data := by
  have hsome : (item_to_issue_dict item src opts).isSome =
      is_key (pyStrip (find_text item "key")) := by
    simp only [item_to_issue_dict]
    split <;> simp_all
  rw [hsome, is_key_pyStrip, keyMatch_iff_spec]

/-! ## C7: custom-attribute normalization and deduplication -/

/-- C7: with values `["a", "a ", " b", "a"]` the extracted list for a
non-blank name `n` is `[(n, ["a", "b"])]` — whitespace-normalized,
blank-free, deduplicated in first-seen order — and a customfield whose name
is blank contributes nothing, whatever its values. -/
theorem c7_customfields (n : String) (vs : List Elem)
    (hn : pyStrip n ≠ "") :
    extract_customfields (mkCfItem n c7Values) = [(pyStrip n, ["a", "b"])] ∧
    extract_customfields (mkCfItem "" vs) = [] := by
  constructor
  · rw [show extract_customfields (mkCfItem n c7Values) =
      if pyStrip n ≠ "" then
        cfSet [] (pyStrip n) (cleanVals ["a", "a", "b", "a"])
      else [] from rfl]
    rw [if_pos hn]
    rfl
  · rfl

/-- C7 witness: the concrete name `CF`. -/
theorem c7_customfields_witness :
    extract_customfields (mkCfItem "CF" c7Values) = [(pyStrip "CF", ["a", "b"])] ∧
    extract_customfields (mkCfItem "" []) = [] :=
  c7_customfields "CF" [] (by decide)

/-! ## C9: the weight covers provenance and derived fields -/

theorem build_search_text_ignores_source_file (i : Issue) (n : String)
    (flag : Bool) :
    build_search_text { i with source_file := n } flag =
      build_search_text i flag := rfl

theorem assembleIssue_source_file (item : Elem) (n m : String) (opts : Options) :
    assembleIssue item n opts =
      { assembleIssue item m opts with source_file := n } := rfl

theorem issueKey_issueToJVal (i : Issue) : issueKey (issueToJVal i) = i.key := rfl

theorem builtIssue_source_file (item : Elem) (n m : String) (opts : Options) :
    builtIssue item n opts =
      { builtIssue item m opts with source_file := n } := by
  show ({ assembleIssue item n opts with
      text := build_search_text (assembleIssue item n opts)
        opts.include_customfields } : Issue) = _
  rw [assembleIssue_source_file item n m opts,
    build_search_text_ignores_source_file]
  rfl

theorem weight_update_source_file (B : Issue) (n : String) :
    node_weight (issueToJVal { B with source_file := n }) +
      B.source_file.length =
    node_weight (issueToJVal B) + n.length := by
  obtain ⟨f1, f2, f3, f4, f5, f6, f7, f8, f9, f10, f11, f12, f13, f14, f15,
    f16, f17, f18, f19⟩ := B
  cases f17 <;> cases f18 <;>
    simp only [issueToJVal, node_weight, List.cons_append, List.nil_append,
      nodeWeightFields_append, nodeWeightFields, List.length_append,
      List.length_cons, List.length_nil] <;>
    omega

theorem weight_built_diff (item : Elem) (n m : String) (opts : Options) :
    node_weight (issueToJVal (builtIssue item n opts)) + m.length =
    node_weight (issueToJVal (builtIssue item m opts)) + n.length := by
  rw [builtIssue_source_file item n m opts]
  have h := weight_update_source_file (builtIssue item m opts) n
  have hs : (builtIssue item m opts).source_file = m := rfl
  rw [hs] at h
  exact h

/-- C9 counterexample: the same item offered from `ab.xml` then from the
shorter-named `a.xml`: the file names differ in length, yet the second
record's weight does not exceed the first's and the first-seen record is
retained — refuting the claim's unconditional "the second replaces the
first". -/
theorem c9_counterexample :
    (item_to_issue_dict c1Item "ab.xml" ⟨false, false⟩).isSome = true ∧
    (item_to_issue_dict c1Item "a.xml" ⟨false, false⟩).isSome = true ∧
    "ab.xml".length ≠ "a.xml".length ∧
    ¬ (node_weight (issueToJVal (builtIssue c1Item "a.xml" ⟨false, false⟩)) >
        node_weight (issueToJVal (builtIssue c1Item "ab.xml" ⟨false, false⟩))) ∧
    dget (offerAll []
        [issueToJVal (builtIssue c1Item "ab.xml" ⟨false, false⟩),
         issueToJVal (builtIssue c1Item "a.xml" ⟨false, false⟩)]) "PROJ-1" =
      some (issueToJVal (builtIssue c1Item "ab.xml" ⟨false, false⟩)) := by
  refine ⟨by decide, by decide, by decide, by decide, by rfl⟩

/-- C9 amended: the weight is computed over the fully built record including
`source_file`, the derived text and (when enabled) the raw node, so for two
records extracted from the same item the one from the strictly longer file
name weighs strictly more; offered second, it replaces the first-seen
record. -/
theorem c9_provenance_weight (item : Elem) (n1 n2 : String) (opts : Options)
    (i1 i2 : Issue) (h1 : item_to_issue_dict item n1 opts = some i1)
    (h2 : item_to_issue_dict item n2 opts = some i2)
    (hlen : n1.length < n2.length) :
    node_weight (issueToJVal i1) < node_weight (issueToJVal i2) ∧
    dget (offerAll [] [issueToJVal i1, issueToJVal i2])
      (issueKey (issueToJVal i1)) = some (issueToJVal i2) := by
  have e1 : i1 = builtIssue item n1 opts := by
    simp only [item_to_issue_dict] at h1
    split at h1
    · exact (Option.some.injEq _ _ |>.mp h1).symm
    · exact absurd h1 (by simp)
  have e2 : i2 = builtIssue item n2 opts := by
    simp only [item_to_issue_dict] at h2
    split at h2
    · exact (Option.some.injEq _ _ |>.mp h2).symm
    · exact absurd h2 (by simp)
  subst e1
  subst e2
  have hw : node_weight (issueToJVal (builtIssue item n1 opts)) <
      node_weight (issueToJVal (builtIssue item n2 opts)) := by
    have := weight_built_diff item n1 n2 opts
    omega
  refine ⟨hw, ?_⟩
  have hk : issueKey (issueToJVal (builtIssue item n2 opts)) =
      issueKey (issueToJVal (builtIssue item n1 opts)) := by
    rw [issueKey_issueToJVal, issueKey_issueToJVal,
      builtIssue_source_file item n2 n1 opts]
  simp only [offerAll, List.foldl]
  have s1 : offer [] (issueToJVal (builtIssue item n1 opts)) =
      [(issueKey (issueToJVal (builtIssue item n1 opts)),
        issueToJVal (builtIssue item n1 opts))] := by
    simp [offer, dget, dset]
  rw [s1]
  simp only [offer, hk, dget, if_pos rfl, hw, gt_iff_lt, if_true, dset]

/-- C9 witness: the concrete minimal item from `a.xml` then `ab.xml`. -/
theorem c9_provenance_weight_witness :
    node_weight (issueToJVal (builtIssue c1Item "a.xml" ⟨false, false⟩)) <
      node_weight (issueToJVal (builtIssue c1Item "ab.xml" ⟨false, false⟩)) ∧
    dget (offerAll []
        [issueToJVal (builtIssue c1Item "a.xml" ⟨false, false⟩),
         issueToJVal (builtIssue c1Item "ab.xml" ⟨false, false⟩)])
      (issueKey (issueToJVal (builtIssue c1Item "a.xml" ⟨false, false⟩))) =
      some (issueToJVal (builtIssue c1Item "ab.xml" ⟨false, false⟩)) :=
  c9_provenance_weight c1Item "a.xml" "ab.xml" ⟨false, false⟩ _ _ (by rfl)
    (by rfl) (by decide)

/-! ## C6: key-sorted finalization -/

theorem charsLe_total (as bs : List Char) :
    charsLe as bs = true ∨ charsLe bs as = true := by
  induction as generalizing bs with
  | nil => left; rfl
  | cons a at' ih =>
    cases bs with
    | nil => right; rfl
    | cons b bt =>
      rcases lt_trichotomy a b with h | h | h
      · left; simp [charsLe, h]
      · subst h
        rcases ih bt with h2 | h2
        · left; simp [charsLe, lt_irrefl, h2]
        · right; simp [charsLe, lt_irrefl, h2]
      · right; simp [charsLe, h]

theorem charsLe_trans (as bs cs : List Char) (h1 : charsLe as bs = true)
    (h2 : charsLe bs cs = true) : charsLe as cs = true := by
  induction as generalizing bs cs with
  | nil => rfl
  | cons a at' ih =>
    cases bs with
    | nil => simp [charsLe] at h1
    | cons b bt =>
      cases cs with
      | nil => simp [charsLe] at h2
      | cons c ct =>
        simp only [charsLe] at h1 h2 ⊢
        rcases lt_trichotomy a b with hab | hab | hab
        · rcases lt_trichotomy b c with hbc | hbc | hbc
          · simp [lt_trans hab hbc]
          · subst hbc; simp [hab]
          · rw [if_neg (asymm hbc), if_pos hbc] at h2
            exact absurd h2 (by simp)
        · subst hab
          rw [if_neg (lt_irrefl a), if_neg (lt_irrefl a)] at h1
          rcases lt_trichotomy a c with hac | hac | hac
          · simp [hac]
          · subst hac
            rw [if_neg (lt_irrefl a), if_neg (lt_irrefl a)] at h2 ⊢
            exact ih bt ct h1 h2
          · rw [if_neg (asymm hac), if_pos hac] at h2
            exact absurd h2 (by simp)
        · rw [if_neg (asymm hab), if_pos hab] at h1
          exact absurd h1 (by simp)

theorem charsLe_antisymm (as bs : List Char) (h1 : charsLe as bs = true)
    (h2 : charsLe bs as = true) : as = bs := by
  induction as generalizing bs with
  | nil =>
    cases bs with
    | nil => rfl
    | cons b bt => simp [charsLe] at h2
  | cons a at' ih =>
    cases bs with
    | nil => simp [charsLe] at h1
    | cons b bt =>
      simp only [charsLe] at h1 h2
      rcases lt_trichotomy a b with hab | hab | hab
      · rw [if_neg (asymm hab), if_pos hab] at h2
        exact absurd h2 (by simp)
      · subst hab
        rw [if_neg (lt_irrefl a), if_neg (lt_irrefl a)] at h1 h2
        simp only [List.cons.injEq, true_and]
        exact ih bt h1 h2
      · rw [if_neg (asymm hab), if_pos hab] at h1
        exact absurd h1 (by simp)

instance : IsTotal String fun a b => pyStrLe a b = true :=
  ⟨fun a b => charsLe_total a.data b.data⟩

instance : IsTrans String fun a b => pyStrLe a b = true :=
  ⟨fun a b c hab hbc => charsLe_trans a.data b.data c.data hab hbc⟩

instance : IsAntisymm String fun a b => pyStrLe a b = true := by
  refine ⟨fun a b hab hba => ?_⟩
  cases a with
  | mk da =>
    cases b with
    | mk db =>
      have := charsLe_antisymm da db hab hba
      simp_all

theorem mem_dictKeys_of_dget (st : List (String × JVal)) (k : String)
    (v : JVal) (h : dget st k = some v) : k ∈ dictKeys st := by
  induction st with
  | nil => simp [dget] at h
  | cons hd t ih =>
    obtain ⟨k0, v0⟩ := hd
    by_cases hk : k0 = k
    · simp [dictKeys, hk]
    · rw [dget, if_neg hk] at h
      simp [dictKeys] at ih ⊢
      exact Or.inr (ih h)

theorem dget_of_mem_dictKeys (st : List (String × JVal)) (k : String)
    (h : k ∈ dictKeys st) : ∃ v, dget st k = some v := by
  induction st with
  | nil => simp [dictKeys] at h
  | cons hd t ih =>
    obtain ⟨k0, v0⟩ := hd
    by_cases hk : k0 = k
    · exact ⟨v0, by simp [dget, hk]⟩
    · simp only [dictKeys, List.map_cons, List.mem_cons] at h
      rcases h with h | h
      · exact absurd h.symm hk
      · obtain ⟨v, hv⟩ := ih h
        exact ⟨v, by simp [dget, hk, hv]⟩

theorem mem_dictKeys_dset (st : List (String × JVal)) (k : String) (v : JVal)
    (k' : String) :
    k' ∈ dictKeys (dset st k v) ↔ k' ∈ dictKeys st ∨ k' = k := by
  induction st with
  | nil => simp [dset, dictKeys]
  | cons hd t ih =>
    obtain ⟨k0, v0⟩ := hd
    by_cases hk : k0 = k
    · subst hk
      simp [dset, dictKeys, List.mem_cons]
      tauto
    · simp only [dset, if_neg hk, dictKeys, List.map_cons, List.mem_cons] at ih ⊢
      rw [ih]
      tauto

theorem nodup_dictKeys_dset (st : List (String × JVal)) (k : String) (v : JVal)
    (h : (dictKeys st).Nodup) : (dictKeys (dset st k v)).Nodup := by
  induction st with
  | nil => simp [dset, dictKeys]
  | cons hd t ih =>
    obtain ⟨k0, v0⟩ := hd
    simp only [dictKeys, List.map_cons, List.nodup_cons] at h
    by_cases hk : k0 = k
    · subst hk
      simpa [dset, dictKeys, List.nodup_cons] using h
    · simp only [dset, if_neg hk, dictKeys, List.map_cons, List.nodup_cons]
      refine ⟨?_, ih h.2⟩
      intro hc
      rcases (mem_dictKeys_dset t k v k0).mp hc with hc | hc
      · exact h.1 hc
      · exact hk hc

theorem mem_dictKeys_offer (st : List (String × JVal)) (r : JVal)
    (k' : String) :
    k' ∈ dictKeys (offer st r) ↔ k' ∈ dictKeys st ∨ k' = issueKey r := by
  unfold offer
  rcases hd : dget st (issueKey r) with _ | prev
  · simp only [hd]
    exact mem_dictKeys_dset st _ r k'
  · simp only [hd]
    split
    · exact mem_dictKeys_dset st _ r k'
    · have hmem := mem_dictKeys_of_dget st (issueKey r) prev hd
      constructor
      · exact Or.inl
      · rintro (h | h)
        · exact h
        · rw [h]; exact hmem

theorem nodup_dictKeys_offer (st : List (String × JVal)) (r : JVal)
    (h : (dictKeys st).Nodup) : (dictKeys (offer st r)).Nodup := by
  unfold offer
  rcases hd : dget st (issueKey r) with _ | prev
  · simp only [hd]
    exact nodup_dictKeys_dset st _ _ h
  · simp only [hd]
    split
    · exact nodup_dictKeys_dset st _ _ h
    · exact h

theorem mem_dictKeys_offerAll (rs : List JVal) (st : List (String × JVal))
    (k' : String) :
    k' ∈ dictKeys (offerAll st rs) ↔
      k' ∈ dictKeys st ∨ k' ∈ rs.map issueKey := by
  induction rs generalizing st with
  | nil => simp [offerAll]
  | cons r rt ih =>
    show k' ∈ dictKeys (offerAll (offer st r) rt) ↔ _
    rw [ih]
    simp [mem_dictKeys_offer]
    tauto

theorem nodup_dictKeys_offerAll (rs : List JVal) (st : List (String × JVal))
    (h : (dictKeys st).Nodup) : (dictKeys (offerAll st rs)).Nodup := by
  induction rs generalizing st with
  | nil => exact h
  | cons r rt ih => exact ih (offer st r) (nodup_dictKeys_offer st r h)

theorem dget_dset_cases (st : List (String × JVal)) (k k' : String) (v : JVal) :
    dget (dset st k v) k' = if k' = k then some v else dget st k' := by
  by_cases h : k' = k
  · subst h; simp [dget_dset_self]
  · simp [h, dget_dset_ne st k k' v h]

theorem stored_key_invariant_offer (st : List (String × JVal)) (r : JVal)
    (h : ∀ k v, dget st k = some v → issueKey v = k) :
    ∀ k v, dget (offer st r) k = some v → issueKey v = k := by
  intro k v hv
  simp only [offer] at hv
  rcases hd : dget st (issueKey r) with _ | prev <;> rw [hd] at hv
  · rw [dget_dset_cases] at hv
    split at hv
    · cases hv
      exact (by assumption : k = issueKey r).symm
    · exact h k v hv
  · simp only at hv
    split at hv
    · rw [dget_dset_cases] at hv
      split at hv
      · cases hv
        exact (by assumption : k = issueKey r).symm
      · exact h k v hv
    · exact h k v hv

theorem stored_key_invariant_offerAll (rs : List JVal)
    (st : List (String × JVal))
    (h : ∀ k v, dget st k = some v → issueKey v = k) :
    ∀ k v, dget (offerAll st rs) k = some v → issueKey v = k := by
  induction rs generalizing st with
  | nil => exact h
  | cons r rt ih => exact ih (offer st r) (stored_key_invariant_offer st r h)

theorem map_issueKey_filterMap_dget (st : List (String × JVal))
    (hinv : ∀ k v, dget st k = some v → issueKey v = k) :
    ∀ ks : List String, (∀ k ∈ ks, k ∈ dictKeys st) →
      (ks.filterMap (dget st)).map issueKey = ks := by
  intro ks
  induction ks with
  | nil => intro _; rfl
  | cons k kt ih =>
    intro hks
    obtain ⟨v, hv⟩ := dget_of_mem_dictKeys st k (hks k (by simp))
    rw [List.filterMap_cons, hv]
    simp only [List.map_cons]
    rw [hinv k v hv, ih fun k' hk' => hks k' (by simp [hk'])]

/-- C6: offering records whose keys are `B-2`, `A-1`, `B-1` in any order,
the finalized output is sorted ascending by key under ordinal string
comparison: the sorted key list is `[A-1, B-1, B-2]` and the finalized
record sequence carries exactly those keys in that order. -/
theorem c6_finalize_sorted (rs : List JVal)
    (h : List.Perm (rs.map issueKey) ["B-2", "A-1", "B-1"]) :
    sortedKeys (offerAll [] rs) = ["A-1", "B-1", "B-2"] ∧
    (finalize (offerAll [] rs)).map issueKey = ["A-1", "B-1", "B-2"] := by
  have hmem : ∀ k, k ∈ dictKeys (offerAll [] rs) ↔ k ∈ rs.map issueKey := by
    intro k
    rw [mem_dictKeys_offerAll]
    simp [dictKeys]
  have hnodup : (dictKeys (offerAll [] rs)).Nodup :=
    nodup_dictKeys_offerAll rs [] (by simp [dictKeys])
  have hperm2 : List.Perm ["B-2", "A-1", "B-1"] ["A-1", "B-1", "B-2"] := by
    decide
  have hpermKeys :
      List.Perm (dictKeys (offerAll [] rs)) ["A-1", "B-1", "B-2"] :=
    (List.perm_ext_iff_of_nodup hnodup (by decide)).2 fun a =>
      (hmem a).trans (h.trans hperm2).mem_iff
  have hsorted : sortedKeys (offerAll [] rs) = ["A-1", "B-1", "B-2"] := by
    have hs1 : List.Sorted (fun a b : String => pyStrLe a b = true)
        (sortedKeys (offerAll [] rs)) := List.sorted_insertionSort _ _
    have hs2 : List.Sorted (fun a b : String => pyStrLe a b = true)
        ["A-1", "B-1", "B-2"] := by decide
    exact List.eq_of_perm_of_sorted
      ((List.perm_insertionSort _ _).trans hpermKeys) hs1 hs2
  refine ⟨hsorted, ?_⟩
  have hinv := stored_key_invariant_offerAll rs [] (by intro k v hv; simp [dget] at hv)
  have hkeys : ∀ k ∈ sortedKeys (offerAll [] rs),
      k ∈ dictKeys (offerAll [] rs) := fun k hk =>
    (List.perm_insertionSort _ _).mem_iff.mp hk
  show ((sortedKeys (offerAll [] rs)).filterMap (dget (offerAll [] rs))).map
      issueKey = _
  rw [map_issueKey_filterMap_dget (offerAll [] rs) hinv _ hkeys, hsorted]

/-- C6 witness: three key-only records offered in the order
`B-2`, `A-1`, `B-1`. -/
theorem c6_finalize_sorted_witness :
    sortedKeys (offerAll [] [keyedRec "B-2", keyedRec "A-1", keyedRec "B-1"]) =
      ["A-1", "B-1", "B-2"] ∧
    (finalize (offerAll []
        [keyedRec "B-2", keyedRec "A-1", keyedRec "B-1"])).map issueKey =
      ["A-1", "B-1", "B-2"] :=
  c6_finalize_sorted [keyedRec "B-2", keyedRec "A-1", keyedRec "B-1"] (by decide)

/-! ## C8: omission of blank fields in the search text -/

theorem strStarts_append_false (pre lab s : String)
    (h1 : strStarts pre lab = false) (h2 : strStarts lab pre = false) :
    strStarts pre (lab ++ s) = false := by
  unfold strStarts at h1 h2 ⊢
  rw [show (lab ++ s).data = lab.data ++ s.data from rfl]
  by_contra h
  rw [Bool.not_eq_false] at h
  have hp : pre.data <+: lab.data ++ s.data := List.isPrefixOf_iff_prefix.mp h
  have hlab : lab.data <+: lab.data ++ s.data := List.prefix_append _ _
  rcases List.prefix_or_prefix_of_prefix hp hlab with hc | hc
  · rw [List.isPrefixOf_iff_prefix.mpr hc] at h1
    exact absurd h1 (by simp)
  · rw [List.isPrefixOf_iff_prefix.mpr hc] at h2
    exact absurd h2 (by simp)

theorem mem_addLine (k s l : String) (h : l ∈ addLine k (some s)) :
    pyStrip s ≠ "" ∧ l = k ++ ": " ++ s := by
  have h' : l ∈ (if pyStrip s = "" then [] else [k ++ ": " ++ s]) := h
  by_cases hs : pyStrip s = ""
  · rw [if_pos hs] at h'
    exact absurd h' (by simp)
  · rw [if_neg hs] at h'
    simp only [List.mem_singleton] at h'
    exact ⟨hs, h'⟩

/-- C8 counterexample: a record with an empty priority whose multi-line
summary makes the rendered text contain both a line starting with
`PRIORITY:` and a bare `STATUS: ` line — so neither "no PRIORITY: line for
empty priority" nor "no bare LABEL: line" holds of the rendered text over
all records. -/
theorem c8_counterexample :
    c8Issue.priority = "" ∧
    ((linesOf (build_search_text c8Issue false)).any fun l =>
      strStarts "PRIORITY:" l) = true ∧
    ((linesOf (build_search_text c8Issue false)).any fun l =>
      l == "STATUS: ") = true := by
  refine ⟨rfl, by decide, by decide⟩

/-- C8 amended: the renderer's `add` step emits a line only for a present,
non-blank value, and always in the form `LABEL: value` with a non-blank
value after the label — never the bare `LABEL: `; a blank priority emits
nothing, so no entry of the renderer's line sequence starts with
`PRIORITY:` (provided the free-text description and comments blocks do not
themselves start with `PRIORITY:`).  Multi-line free-text values can still
inject such lines into the final joined blob, which is what refutes the
original universal claim. -/
theorem c8_blank_fields_omitted :
    (∀ k : String, addLine k none = []) ∧
    (∀ k s : String, pyStrip s = "" → addLine k (some s) = []) ∧
    (∀ k s : String, pyStrip s ≠ "" → addLine k (some s) = [k ++ ": " ++ s]) ∧
    (∀ k s l : String, l ∈ addLine k (some s) → l ≠ k ++ ": ") ∧
    (∀ (issue : Issue) (flag : Bool),
      pyStrip issue.priority = "" →
      strStarts "PRIORITY:" issue.description_text = false →
      strStarts "PRIORITY:" issue.comments_text = false →
      ∀ l ∈ buildSearchLines issue flag, strStarts "PRIORITY:" l = false) := by
  have hadd_none : ∀ k : String, addLine k none = [] := fun k => rfl
  have hadd_blank : ∀ k s : String, pyStrip s = "" → addLine k (some s) = [] := by
    intro k s hs
    show (if pyStrip s = "" then [] else [k ++ ": " ++ s]) = []
    rw [if_pos hs]
  have hadd_line : ∀ k s : String, pyStrip s ≠ "" →
      addLine k (some s) = [k ++ ": " ++ s] := by
    intro k s hs
    show (if pyStrip s = "" then [] else [k ++ ": " ++ s]) = [k ++ ": " ++ s]
    rw [if_neg hs]
  have hadd_ne : ∀ k s l : String, l ∈ addLine k (some s) → l ≠ k ++ ": " := by
    intro k s l h heq
    obtain ⟨hns, rfl⟩ := mem_addLine k s l h
    have hdata : (k ++ ": ").data ++ s.data = (k ++ ": ").data ++ [] := by
      simpa using congrArg String.data heq
    have hnil : s.data = [] := List.append_cancel_left hdata
    have hs0 : s = "" := by
      cases s with
      | mk d => simp_all
    rw [hs0] at hns
    exact hns rfl
  refine ⟨hadd_none, hadd_blank, hadd_line, hadd_ne, ?_⟩
  intro issue flag hp hd hc l hl
  have hlab : ∀ (lab v : String), strStarts "PRIORITY:" lab = false →
      strStarts lab "PRIORITY:" = false →
      l ∈ addLine lab (some v) → strStarts "PRIORITY:" l = false := by
    intro lab v h1 h2 hm
    obtain ⟨_, rfl⟩ := mem_addLine lab v l hm
    rw [String.append_assoc]
    exact strStarts_append_false _ _ _ h1 h2
  simp only [buildSearchLines, List.mem_append, or_assoc] at hl
  rcases hl with hl | hl
  · exact hlab _ _ (by decide) (by decide) hl
  rcases hl with hl | hl
  · exact hlab _ _ (by decide) (by decide) hl
  rcases hl with hl | hl
  · exact hlab _ _ (by decide) (by decide) hl
  rcases hl with hl | hl
  · exact hlab _ _ (by decide) (by decide) hl
  rcases hl with hl | hl
  · -- priority line: empty by the blank-priority hypothesis
    rw [hadd_blank "PRIORITY" issue.priority hp] at hl
    simp at hl
  rcases hl with hl | hl
  · exact hlab _ _ (by decide) (by decide) hl
  rcases hl with hl | hl
  · exact hlab _ _ (by decide) (by decide) hl
  rcases hl with hl | hl
  · exact hlab _ _ (by decide) (by decide) hl
  rcases hl with hl | hl
  · exact hlab _ _ (by decide) (by decide) hl
  rcases hl with hl | hl
  · -- project lines
    rcases hpr : issue.project with _ | p <;> rw [hpr] at hl
    · simp at hl
    · rcases List.mem_append.mp hl with h2 | h2
      · split at h2
        · exact hlab _ _ (by decide) (by decide) h2
        · simp at h2
      · split at h2
        · exact hlab _ _ (by decide) (by decide) h2
        · simp at h2
  rcases hl with hl | hl
  · -- parent line
    split at hl
    · exact hlab _ _ (by decide) (by decide) hl
    · simp at hl
  rcases hl with hl | hl
  · -- subtasks line
    split at hl
    · exact hlab _ _ (by decide) (by decide) hl
    · simp at hl
  rcases hl with hl | hl
  · -- customfields section
    split at hl
    · rcases hcf : issue.customfields with _ | cfs <;> rw [hcf] at hl
      · simp at hl
      · have hl' : l ∈ cfSection cfs := hl
        unfold cfSection at hl'
        split at hl'
        · exact absurd hl' (List.not_mem_nil l)
        · rw [List.mem_cons, List.mem_cons] at hl'
          rcases hl' with rfl | hl'
          · decide
          rcases hl' with rfl | hl'
          · decide
          obtain ⟨name, hnm, hval⟩ := List.mem_filterMap.mp hl'
          rcases hg : cfGet cfs name with _ | vals <;> rw [hg] at hval
          · exact Option.noConfusion hval
          · have h1 : (if vals.isEmpty then none
                else some ("- " ++ name ++ ": " ++ pyJoin ", " vals)) =
                some l := hval
            split at h1
            · exact Option.noConfusion h1
            · have h2 := Option.some.inj h1
              rw [← h2, String.append_assoc, String.append_assoc]
              exact strStarts_append_false _ _ _ (by decide) (by decide)
    · simp at hl
  rcases hl with hl | hl
  · -- description section
    split at hl
    · simp only [List.mem_cons] at hl
      rcases hl with rfl | hl
      · decide
      rcases hl with rfl | hl
      · decide
      rcases hl with rfl | hl
      · exact hd
      · simp at hl
    · simp at hl
  · -- comments section
    split at hl
    · simp only [List.mem_cons] at hl
      rcases hl with rfl | hl
      · decide
      rcases hl with rfl | hl
      · decide
      rcases hl with rfl | hl
      · exact hc
      · simp at hl
    · simp at hl

/-- C8 witness: a record with blank priority, whose description and comments
are free of a leading `PRIORITY:`; none of the renderer's emitted entries
starts with `PRIORITY:`. -/
theorem c8_blank_fields_omitted_witness :
    (∀ l ∈ buildSearchLines c8Issue false, strStarts "PRIORITY:" l = false) :=
  c8_blank_fields_omitted.2.2.2.2 c8Issue false (by decide) (by decide)
    (by decide)

/-- C4 witness: four string records sharing the (empty) business key with
weights 5, 5, 8 and 3. -/
theorem c4_offer_dedup_witness :
    dget (offerAll []
        [JVal.str "aaaaa", JVal.str "bbbbb", JVal.str "cccccccc", JVal.str "ddd"])
      (issueKey (JVal.str "aaaaa")) = some (JVal.str "cccccccc") ∧
    dget (offerAll [] [JVal.str "aaaaa", JVal.str "bbbbb"])
      (issueKey (JVal.str "aaaaa")) = some (JVal.str "aaaaa") :=
  c4_offer_dedup.2.2 (JVal.str "aaaaa") (JVal.str "bbbbb") (JVal.str "cccccccc")
    (JVal.str "ddd") rfl rfl rfl rfl rfl rfl rfl

/-! ## C2: the sanitizer is not idempotent in general -/

/-- C2 counterexample: `&lt;b&gt; x` sanitizes to `<b> x` (character
references are unescaped), and sanitizing that again strips the now-literal
tag, leaving `x` — so `sanitize (sanitize x) ≠ sanitize x`. -/
theorem c2_counterexample :
    strip_html "&lt;b&gt; x" = "<b> x" ∧
    strip_html "<b> x" = "x" ∧
    strip_html (strip_html "&lt;b&gt; x") ≠ strip_html "&lt;b&gt; x" := by
  refine ⟨by decide, by decide, by decide⟩

theorem unescapeChars_of_no_amp (l : List Char) (h : ∀ c ∈ l, c ≠ '&') :
    unescapeChars l = l := by
  induction l with
  | nil => rfl
  | cons c rest ih =>
    have hc : c ≠ '&' := h c (by simp)
    have hrest := ih fun c' hc' => h c' (by simp [hc'])
    rw [unescapeChars.eq_def]
    split
    · exact absurd (by assumption : c :: rest = []) (by simp)
    · rename_i heq
      injection heq with h1 h2
      exact absurd h1 hc
    · rename_i heq
      injection heq with h1 h2
      exact absurd h1 hc
    · rename_i heq
      injection heq with h1 h2
      exact absurd h1 hc
    · rename_i heq
      injection heq with h1 h2
      exact absurd h1 hc
    · rename_i heq
      injection heq with h1 h2
      rw [← h1, ← h2, hrest]

theorem bufferTailAmp_of_no_amp (cs : List Char) (h : ∀ c ∈ cs, c ≠ '&') :
    bufferTailAmp cs = false := by
  unfold bufferTailAmp
  rw [if_neg]
  intro hmem
  rw [List.mem_reverse] at hmem
  exact h '&' (List.mem_of_mem_drop hmem) rfl

theorem goaheadAux_no_markup (fuel : Nat) (cs : List Char)
    (h : ∀ c ∈ cs, noMarkupChar c = true) :
    goaheadAux (fuel + 1) cs = if cs.isEmpty then [] else [cs] := by
  have hlt : ∀ c ∈ cs, c ≠ '<' := by
    intro c hc
    have := h c hc
    unfold noMarkupChar at this
    simp at this
    exact fun he => by simp [he] at this
  have hamp : ∀ c ∈ cs, c ≠ '&' := by
    intro c hc
    have := h c hc
    unfold noMarkupChar at this
    simp at this
    exact fun he => by simp [he] at this
  have hfind : List.findIdx? (fun c => c = '<') cs = none := by
    refine List.findIdx?_eq_none_iff.mpr ?_
    intro c hc
    simp [hlt c hc]
  rw [show goaheadAux (fuel + 1) cs =
    (match List.findIdx? (fun c => c = '<') cs with
     | none =>
       if bufferTailAmp cs then []
       else if cs.isEmpty then [] else [unescapeChars cs]
     | some j =>
       let dataPart := cs.take j
       let emitted := if dataPart.isEmpty then [] else [unescapeChars dataPart]
       emitted ++
         (match cs.drop j with
          | [] => []
          | _lt :: r =>
            match r with
            | [] => []
            | c :: _ =>
              if c.isAlpha || c = '/' || c = '!' || c = '?' then
                match afterFirst '>' r with
                | none => []
                | some r2 => goaheadAux fuel r2
              else ['<'] :: goaheadAux fuel r)) from rfl]
  rw [hfind]
  rw [bufferTailAmp_of_no_amp cs hamp]
  rw [unescapeChars_of_no_amp cs hamp]
  simp

theorem stripperParts_no_markup (s : String) (h : noMarkup s = true) :
    stripperParts s = if pyStrip s = "" then [] else [pyStrip s] := by
  have hall : ∀ c ∈ s.data, noMarkupChar c = true := by
    intro c hc
    exact List.all_eq_true.mp h c hc
  unfold stripperParts htmlChunks
  rw [goaheadAux_no_markup s.data.length s.data hall]
  by_cases he : s.data.isEmpty
  · rw [if_pos he]
    have hs : pyStrip s = "" := by
      have : s.data = [] := by simpa [List.isEmpty_iff] using he
      simp [pyStrip, this, stripChars, dropTrailing]
    simp [hs]
  · rw [if_neg he]
    have hdata : (⟨s.data⟩ : String) = s := rfl
    simp only [List.map_cons, List.map_nil, hdata, List.filterMap]
    by_cases hps : pyStrip s = ""
    · simp [hps]
    · simp [hps]

theorem pyJoin_singleton (sep x : String) : pyJoin sep [x] = x := by
  show (⟨x.data ++ []⟩ : String) = x
  rw [List.append_nil]

theorem collapseChars_nonspace (c : Char) (rest : List Char)
    (hc : pyIsSpace c = false) :
    collapseChars (c :: rest) = c :: collapseChars rest := by
  cases rest <;> simp [collapseChars, hc]

theorem collapseChars_space_nil (c : Char) (hc : pyIsSpace c = true) :
    collapseChars [c] = [' '] := by
  simp [collapseChars, hc]

theorem collapseChars_space_space (c d : Char) (rest : List Char)
    (hc : pyIsSpace c = true) (hd : pyIsSpace d = true) :
    collapseChars (c :: d :: rest) = collapseChars (d :: rest) := by
  simp [collapseChars, hc, hd]

theorem collapseChars_space_nonspace (c d : Char) (rest : List Char)
    (hc : pyIsSpace c = true) (hd : pyIsSpace d = false) :
    collapseChars (c :: d :: rest) = ' ' :: collapseChars (d :: rest) := by
  simp [collapseChars, hc, hd]

theorem noAdjWs_tail (c : Char) (t : List Char)
    (h : noAdjWs (c :: t) = true) : noAdjWs t = true := by
  cases t with
  | nil => rfl
  | cons d r =>
    simp only [noAdjWs, Bool.and_eq_true] at h
    exact h.2

theorem noAdjWs_cons_of (c : Char) (t : List Char) (ht : noAdjWs t = true)
    (hh : ∀ f, t.head? = some f →
      (pyIsSpace c = true → pyIsSpace f = false)) :
    noAdjWs (c :: t) = true := by
  cases t with
  | nil => rfl
  | cons d r =>
    simp only [noAdjWs, Bool.and_eq_true]
    refine ⟨?_, ht⟩
    by_cases hc : pyIsSpace c = true
    · simp [hc, hh d rfl hc]
    · simp [Bool.eq_false_iff.mpr hc]

theorem noAdjWs_collapseChars (l : List Char) :
    noAdjWs (collapseChars l) = true := by
  induction l with
  | nil => rfl
  | cons c rest ih =>
    by_cases hc : pyIsSpace c = true
    · cases rest with
      | nil => rw [collapseChars_space_nil c hc]; rfl
      | cons d rest' =>
        by_cases hd : pyIsSpace d = true
        · rw [collapseChars_space_space c d rest' hc hd]
          exact ih
        · rw [collapseChars_space_nonspace c d rest' hc
            (Bool.eq_false_iff.mpr hd)]
          refine noAdjWs_cons_of _ _ ih ?_
          intro f hf _
          rw [collapseChars_nonspace d rest' (Bool.eq_false_iff.mpr hd)] at hf
          simp only [List.head?_cons, Option.some.injEq] at hf
          rw [← hf]
          exact Bool.eq_false_iff.mpr hd
    · rw [collapseChars_nonspace c rest (Bool.eq_false_iff.mpr hc)]
      refine noAdjWs_cons_of _ _ ih ?_
      intro f _ hcs
      exact absurd hcs hc

theorem mem_collapseChars (l : List Char) (c : Char)
    (h : c ∈ collapseChars l) : (c ∈ l ∧ pyIsSpace c = false) ∨ c = ' ' := by
  induction l with
  | nil => simp [collapseChars] at h
  | cons a rest ih =>
    by_cases ha : pyIsSpace a = true
    · cases rest with
      | nil =>
        rw [collapseChars_space_nil a ha] at h
        simp at h
        exact Or.inr h
      | cons d rest' =>
        by_cases hd : pyIsSpace d = true
        · rw [collapseChars_space_space a d rest' ha hd] at h
          rcases ih h with ⟨hm, hs⟩ | hs
          · exact Or.inl ⟨by simp [hm], hs⟩
          · exact Or.inr hs
        · rw [collapseChars_space_nonspace a d rest' ha
            (Bool.eq_false_iff.mpr hd)] at h
          rcases List.mem_cons.mp h with rfl | h2
          · exact Or.inr rfl
          · rcases ih h2 with ⟨hm, hs⟩ | hs
            · exact Or.inl ⟨by simp [hm], hs⟩
            · exact Or.inr hs
    · rw [collapseChars_nonspace a rest (Bool.eq_false_iff.mpr ha)] at h
      rcases List.mem_cons.mp h with rfl | h2
      · exact Or.inl ⟨by simp, Bool.eq_false_iff.mpr ha⟩
      · rcases ih h2 with ⟨hm, hs⟩ | hs
        · exact Or.inl ⟨by simp [hm], hs⟩
        · exact Or.inr hs

theorem stripChars_sublist (l : List Char) : List.Sublist (stripChars l) l := by
  unfold stripChars
  exact ((dropTrailing_prefix_self pyIsSpace (l.dropWhile pyIsSpace)).sublist).trans
    (List.dropWhile_suffix pyIsSpace).sublist

theorem mem_stripChars (l : List Char) (c : Char) (h : c ∈ stripChars l) :
    c ∈ l :=
  (stripChars_sublist l).mem h

theorem spacesCanonical_collapseChars (l : List Char) :
    spacesCanonical (collapseChars l) = true := by
  rw [spacesCanonical, List.all_eq_true]
  intro c hc
  rcases mem_collapseChars l c hc with ⟨_, hs⟩ | rfl
  · simp [hs]
  · simp

theorem spacesCanonical_of_sublist (l1 l2 : List Char)
    (h : List.Sublist l1 l2) (h2 : spacesCanonical l2 = true) :
    spacesCanonical l1 = true := by
  rw [spacesCanonical, List.all_eq_true] at h2 ⊢
  intro c hc
  exact h2 c (h.mem hc)

theorem noAdjWs_suffix (t l : List Char) (h : t <:+ l)
    (ha : noAdjWs l = true) : noAdjWs t = true := by
  obtain ⟨pre, rfl⟩ := h
  induction pre with
  | nil => exact ha
  | cons x pre' ih => exact ih (noAdjWs_tail x (pre' ++ t) ha)

theorem noAdjWs_prefix (y l : List Char) (h : y <+: l)
    (ha : noAdjWs l = true) : noAdjWs y = true := by
  obtain ⟨post, rfl⟩ := h
  induction y with
  | nil => rfl
  | cons x ys ih =>
    cases ys with
    | nil => rfl
    | cons x2 ys' =>
      simp only [List.cons_append] at ha
      simp only [noAdjWs, Bool.and_eq_true] at ha ⊢
      exact ⟨ha.1, ih (by simpa using ha.2)⟩

theorem stripChars_eq_self (l : List Char)
    (hh : ∀ c, l.head? = some c → pyIsSpace c = false)
    (hl : ∀ c, l.getLast? = some c → pyIsSpace c = false) :
    stripChars l = l := by
  unfold stripChars
  rw [dropWhile_eq_self_of_head? pyIsSpace l hh]
  exact dropTrailing_eq_self pyIsSpace l hl

theorem collapseChars_eq_self (l : List Char)
    (hsp : spacesCanonical l = true) (hadj : noAdjWs l = true) :
    collapseChars l = l := by
  induction l with
  | nil => rfl
  | cons c rest ih =>
    have hsp' : spacesCanonical rest = true := by
      rw [spacesCanonical, List.all_eq_true] at hsp ⊢
      intro x hx
      exact hsp x (by simp [hx])
    have hadj' := noAdjWs_tail c rest hadj
    by_cases hc : pyIsSpace c = true
    · have hcsp : c = ' ' := by
        rw [spacesCanonical, List.all_eq_true] at hsp
        have := hsp c (by simp)
        simp [hc] at this
        exact this
      cases rest with
      | nil => rw [collapseChars_space_nil c hc, hcsp]
      | cons d rest' =>
        have hd : pyIsSpace d = false := by
          simp only [noAdjWs, Bool.and_eq_true] at hadj
          by_cases hdd : pyIsSpace d = true
          · exfalso
            have := hadj.1
            simp [hc, hdd] at this
          · exact Bool.eq_false_iff.mpr hdd
        rw [collapseChars_space_nonspace c d rest' hc hd, hcsp,
          ih hsp' hadj']
    · rw [collapseChars_nonspace c rest (Bool.eq_false_iff.mpr hc),
        ih hsp' hadj']

theorem canonChars_idem (l : List Char) :
    stripChars (collapseChars (stripChars
      (stripChars (collapseChars (stripChars l))))) =
    stripChars (collapseChars (stripChars l)) := by
  set g := stripChars (collapseChars (stripChars l)) with hg
  have hstrip : stripChars g = g := by
    rw [hg]
    exact stripChars_idem _
  have hsp : spacesCanonical g = true := by
    rw [hg]
    exact spacesCanonical_of_sublist _ _ (stripChars_sublist _)
      (spacesCanonical_collapseChars _)
  have hadjg : noAdjWs g = true := by
    rw [hg]
    unfold stripChars
    have h1 := noAdjWs_collapseChars (stripChars l)
    have h2 := noAdjWs_suffix _ _
      (List.dropWhile_suffix pyIsSpace) h1
    exact noAdjWs_prefix _ _ (dropTrailing_prefix_self pyIsSpace _) h2
  rw [hstrip, collapseChars_eq_self g hsp hadjg, hstrip]

theorem noMarkup_canonStr (s : String) (h : noMarkup s = true) :
    noMarkup (canonStr s) = true := by
  rw [noMarkup, List.all_eq_true] at h ⊢
  intro c hc
  have hc2 : c ∈ collapseChars (stripChars s.data) :=
    mem_stripChars _ c hc
  rcases mem_collapseChars _ c hc2 with ⟨hm, _⟩ | rfl
  · exact h c (mem_stripChars _ c hm)
  · decide

theorem strip_html_no_markup (s : String) (h : noMarkup s = true) :
    strip_html s = canonStr s := by
  by_cases h0 : s = ""
  · rw [h0]
    rfl
  unfold strip_html
  rw [if_neg h0, stripperParts_no_markup s h]
  by_cases hps : pyStrip s = ""
  · rw [if_pos hps]
    have hnil : stripChars s.data = [] := by
      have := congrArg String.data hps
      simpa [pyStrip] using this
    show pyStrip (pyCollapse (pyJoin " " [])) = canonStr s
    unfold canonStr
    rw [hnil]
    rfl
  · rw [if_neg hps, pyJoin_singleton]
    rfl

/-- C2 amended: the sanitizer is idempotent on every input containing no
`<` and no `&` — the two characters through which markup (tags and
character references) re-enters on a second pass.  On such inputs
sanitization is exactly strip-collapse-strip, which is a closure operator.
(The counterexample shows idempotence fails in general.) -/
theorem c2_sanitize_idempotent_no_markup (s : String) (h : noMarkup s = true) :
    strip_html (strip_html s) = strip_html s := by
  rw [strip_html_no_markup s h,
    strip_html_no_markup (canonStr s) (noMarkup_canonStr s h)]
  show (⟨stripChars (collapseChars (stripChars
    (stripChars (collapseChars (stripChars s.data)))))⟩ : String) = canonStr s
  rw [canonChars_idem]
  rfl

/-- C2 witness: a markup-free string with leading, trailing and internal
whitespace runs. -/
theorem c2_sanitize_idempotent_no_markup_witness :
    noMarkup "  Agent   ready  text " = true ∧
    strip_html (strip_html "  Agent   ready  text ") =
      strip_html "  Agent   ready  text " :=
  ⟨by decide,
    c2_sanitize_idempotent_no_markup "  Agent   ready  text " (by decide)⟩

end JiraJsonl
